import Mathlib

/-!
# Verification of the TDL2048-Demo board engine and TD(0) controller

A shallow embedding of `2048.cpp` (a 2x2 afterstate TD(0) learner for 2048).

Modelling conventions:
* `board::tile` is a 2x2 array of C `int` cells; in actual use every cell is a
  nonnegative rank, so cells are embedded as `Nat`.
* `board::operator int` / `board::operator=` become `encode` / `decode`.
  The C++ source extracts nibbles with `(v >> k) & 15`; on nonnegative values
  this is exactly `v / 2^k % 16`, which is how `decode` is written here.
* The weight table `float weight[6*6*6*6]` and all value arithmetic are
  embedded over `ℚ` (an exact stand-in for IEEE `float`); the table is a total
  function `Nat → ℚ` read and written at the index the C++ code computes, so
  out-of-range indices are representable, as in the source.
* `-std::numeric_limits<float>::max()` is embedded as the exact rational value
  of `FLT_MAX`, namely `2^128 - 2^104`.
* Loops become folds/recursions, mutation becomes explicit state passing.
-/

/-- The 2x2 board: `tile[0][0], tile[0][1], tile[1][0], tile[1][1]`. -/
structure Board where
  t00 : Nat
  t01 : Nat
  t10 : Nat
  t11 : Nat
deriving DecidableEq, Repr

namespace Board

/-- `board::operator int`:
`tile[0][0] * 4096 + tile[0][1] * 256 + tile[1][0] * 16 + tile[1][1]`. -/
def encode (b : Board) : Nat :=
  b.t00 * 4096 + b.t01 * 256 + b.t10 * 16 + b.t11

/-- `board::operator=(int v)`: nibble extraction `(v >> k) & 15`,
written as division/mod (equal on nonnegative values). -/
def decode (v : Nat) : Board :=
  ⟨v / 4096 % 16, v / 256 % 16, v / 16 % 16, v % 16⟩

/-- All four cells are valid nibbles (the board data-model invariant). -/
def valid15 (b : Board) : Prop :=
  b.t00 ≤ 15 ∧ b.t01 ≤ 15 ∧ b.t10 ≤ 15 ∧ b.t11 ≤ 15

instance (b : Board) : Decidable (valid15 b) := by unfold valid15; infer_instance

/-- All four cells are below 6 (the weight-table precondition). -/
def valid5 (b : Board) : Prop :=
  b.t00 ≤ 5 ∧ b.t01 ≤ 5 ∧ b.t10 ≤ 5 ∧ b.t11 ≤ 5

instance (b : Board) : Decidable (valid5 b) := by unfold valid5; infer_instance

/-- One row of `board::left`, acting on the pair `(row[0], row[1])`:
```
if (row[0] == 0) { row[0] = row[1]; row[1] = 0; }
else if (row[0] == row[1]) { row[0]++; row[1] = 0; score += (1 << row[0]) & -2u; }
```
Result: `(row[0], row[1], score contribution)`; `-2u` is `4294967294`. -/
def rowLeft (a b : Nat) : Nat × Nat × Nat :=
  if a = 0 then (b, 0, 0)
  else if a = b then (a + 1, 0, 2 ^ (a + 1) &&& 4294967294)
  else (a, b, 0)

/-- `board::left()`: slide/merge each row, then report the summed score if the
encoding changed and `-1` otherwise.  As in the C++ (which mutates `tile` in
place), the returned board is the slid/merged one in either case. -/
def left (b : Board) : Board × Int :=
  let now := b.encode
  let r0 := rowLeft b.t00 b.t01
  let r1 := rowLeft b.t10 b.t11
  let nb : Board := ⟨r0.1, r0.2.1, r1.1, r1.2.1⟩
  if nb.encode ≠ now then (nb, ((r0.2.2 + r1.2.2 : Nat) : Int)) else (nb, -1)

/-- `board::mirror()`: swap the two cells within each row. -/
def mirror (b : Board) : Board := ⟨b.t01, b.t00, b.t11, b.t10⟩

/-- `board::transpose()`: swap the two off-diagonal cells. -/
def transpose (b : Board) : Board := ⟨b.t00, b.t10, b.t01, b.t11⟩

/-- `board::flip()`: swap the two rows. -/
def flip (b : Board) : Board := ⟨b.t10, b.t11, b.t00, b.t01⟩

/-- `board::rotate(int r)`: switch on `((r % 4) + 4) % 4`
(the canonical residue, identical in C++ and in Lean `Int.emod`):
case 1 applies transpose then mirror, case 2 mirror then flip,
case 3 transpose then flip, case 0/default nothing. -/
def rotate (b : Board) (r : Int) : Board :=
  let m := ((r % 4) + 4) % 4
  if m = 1 then mirror (transpose b)
  else if m = 2 then flip (mirror b)
  else if m = 3 then flip (transpose b)
  else b

/-- `board::isomorphic(int i)`: with `iso = ((i % 8) + 8) % 8`,
apply `mirror()` iff `iso > 4`, then `rotate(iso)`. -/
def isomorphic (b : Board) (i : Int) : Board :=
  let iso := ((i % 8) + 8) % 8
  let b1 := if iso > 4 then mirror b else b
  rotate b1 iso

/-- `board::right()`: `mirror(); score = left(); mirror();`. -/
def right (b : Board) : Board × Int :=
  let r := left (mirror b)
  (mirror r.1, r.2)

/-- `board::up()`: `rotate(1); score = right(); rotate(-1);`. -/
def up (b : Board) : Board × Int :=
  let r := right (rotate b 1)
  (rotate r.1 (-1), r.2)

/-- `board::down()`: `rotate(1); score = left(); rotate(-1);`. -/
def down (b : Board) : Board × Int :=
  let r := left (rotate b 1)
  (rotate r.1 (-1), r.2)

/-- `board::move(int opcode)`: dispatch on the opcode, returning the
mutated board together with the reward (or the `-1` ILLEGAL sentinel);
any opcode outside 0..3 hits the `default` case and leaves the board alone. -/
def move (b : Board) (opcode : Int) : Board × Int :=
  if opcode = 0 then up b
  else if opcode = 1 then right b
  else if opcode = 2 then down b
  else if opcode = 3 then left b
  else (b, -1)

/-- The multiset of the four cell ranks of a board. -/
def cells (b : Board) : Multiset Nat := {b.t00, b.t01, b.t10, b.t11}

end Board

/-- The size of the weight table: `float weight[6 * 6 * 6 * 6]`. -/
def tableSize : Nat := 6 * 6 * 6 * 6

/-- The weight-table index computed by the lambda `V`:
`(b[0][0]*6*6*6) + (b[0][1]*6*6) + (b[1][0]*6) + b[1][1]`. -/
def vindex (b : Board) : Nat :=
  b.t00 * (6 * 6 * 6) + b.t01 * (6 * 6) + b.t10 * 6 + b.t11

/-- Reading `V(b)` from a weight table. -/
def vget (w : Nat → ℚ) (b : Board) : ℚ := w (vindex b)

/-- `V(b) += d`: pointwise update of the weight table at `vindex b`. -/
def vadd (w : Nat → ℚ) (b : Board) (d : ℚ) : Nat → ℚ :=
  fun j => if j = vindex b then w j + d else w j

section BasicClaims

open Board

/-- **C7.** Encode/decode round-trip: for every 16-bit packed encoding `e`,
`encode (decode e) = e` and `decode e` is a valid board; conversely every
valid board decodes back from its encoding, so `encode`/`decode` form a
bijection between valid boards and 16-bit values. -/
theorem encode_decode_bijection (e : Nat) (he : e < 65536) :
    (Board.encode (Board.decode e) = e ∧ Board.valid15 (Board.decode e)) ∧
    (∀ b : Board, Board.valid15 b → Board.decode (Board.encode b) = b) := by
  refine ⟨⟨?_, ?_, ?_, ?_, ?_⟩, ?_⟩
  · simp only [Board.encode, Board.decode]
    omega
  · simp only [Board.decode]; omega
  · simp only [Board.decode]; omega
  · simp only [Board.decode]; omega
  · simp only [Board.decode]; omega
  · rintro ⟨a, b, c, d⟩ h
    simp only [Board.valid15] at h
    obtain ⟨h1, h2, h3, h4⟩ := h
    simp only [Board.encode, Board.decode, Board.mk.injEq]
    refine ⟨?_, ?_, ?_, ?_⟩ <;> omega

theorem encode_decode_bijection_witness :
    4660 < 65536 ∧ Board.encode (Board.decode 4660) = 4660 :=
  ⟨by decide, (encode_decode_bijection 4660 (by decide)).1.1⟩

/-- **C9.** Value-table access safety: for every board whose four cell ranks
lie in `[0,5]`, the index `r00*216 + r01*36 + r10*6 + r11` computed by the
weight-table lambda `V` is below the table size `6^4 = 1296`, so the access
is in bounds. -/
theorem vindex_lt_tableSize (b : Board) (h : Board.valid5 b) :
    vindex b < tableSize := by
  obtain ⟨h1, h2, h3, h4⟩ := h
  simp only [vindex, tableSize]
  omega

theorem vindex_lt_tableSize_witness :
    Board.valid5 ⟨1, 2, 3, 4⟩ ∧ vindex ⟨1, 2, 3, 4⟩ < tableSize :=
  ⟨by decide, vindex_lt_tableSize ⟨1, 2, 3, 4⟩ (by decide)⟩

/-- **C10.** For every board and every opcode outside `{0,1,2,3}`, `move`
falls into the `default` branch: it returns the `-1` ILLEGAL sentinel and
leaves the board entirely unchanged. -/
theorem move_default_illegal (b : Board) (op : Int)
    (h0 : op ≠ 0) (h1 : op ≠ 1) (h2 : op ≠ 2) (h3 : op ≠ 3) :
    Board.move b op = (b, -1) := by
  simp [Board.move, h0, h1, h2, h3]

theorem move_default_illegal_witness :
    ((4 : Int) ≠ 0 ∧ (4 : Int) ≠ 1 ∧ (4 : Int) ≠ 2 ∧ (4 : Int) ≠ 3) ∧
      Board.move ⟨1, 2, 3, 4⟩ 4 = (⟨1, 2, 3, 4⟩, -1) :=
  ⟨by decide,
    move_default_illegal ⟨1, 2, 3, 4⟩ 4 (by decide) (by decide) (by decide) (by decide)⟩

/-- **C3, counterexample.** The claim that a row of two empty cells is merged
into a rank-1 tile with reward 2 is false: on the row `(0,0)` the per-row rule
does not produce first cell 1, second cell 0, reward 2 (the empty-first-cell
slide branch is taken before the equality test is reached). -/
theorem rowLeft_empty_no_merge :
    ¬ ((rowLeft 0 0).1 = 1 ∧ (rowLeft 0 0).2.1 = 0 ∧ (rowLeft 0 0).2.2 = 2) := by
  decide

/-- **C3, amended.** A row of two empty cells is left entirely unchanged with
reward 0 (the `row[0] == 0` slide branch shadows the equality test, so no tile
is materialized); consequently `left` on the all-empty board changes nothing
and reports ILLEGAL. -/
theorem rowLeft_empty_unchanged :
    rowLeft 0 0 = (0, 0, 0) ∧ Board.left ⟨0, 0, 0, 0⟩ = (⟨0, 0, 0, 0⟩, -1) := by
  decide

/-- **C4.** Merging a row whose two cells hold the same nonzero rank `r`
yields first cell `r+1`, second cell empty, and reward exactly `2^(r+1)`;
concretely, `move(Left)` on the board `(1,1,0,0)` returns 4 and produces
rank 2 at cell (0,0) and empty cells elsewhere. -/
theorem rowLeft_merge_reward :
    (∀ r : Nat, r ≤ 15 → 1 ≤ r → rowLeft r r = (r + 1, 0, 2 ^ (r + 1))) ∧
      Board.move ⟨1, 1, 0, 0⟩ 3 = (⟨2, 0, 0, 0⟩, 4) := by
  constructor
  · decide
  · decide

theorem rowLeft_merge_reward_witness :
    (3 ≤ 15 ∧ 1 ≤ 3) ∧ rowLeft 3 3 = (4, 0, 16) :=
  ⟨by decide, rowLeft_merge_reward.1 3 (by decide) (by decide)⟩

end BasicClaims

section Symmetry

open Board

/-- `mirror` permutes the cells, so the rank multiset is unchanged. -/
lemma cells_mirror (b : Board) : cells (mirror b) = cells b := by
  rcases b with ⟨a, b, c, d⟩
  simp only [cells, mirror]
  rw [Multiset.ext]
  intro x
  simp [Multiset.count_cons, Multiset.count_singleton]
  split_ifs <;> omega

/-- `transpose` permutes the cells, so the rank multiset is unchanged. -/
lemma cells_transpose (b : Board) : cells (transpose b) = cells b := by
  rcases b with ⟨a, b, c, d⟩
  simp only [cells, transpose]
  rw [Multiset.ext]
  intro x
  simp [Multiset.count_cons, Multiset.count_singleton]
  split_ifs <;> omega

/-- `flip` permutes the cells, so the rank multiset is unchanged. -/
lemma cells_flip (b : Board) : cells (Board.flip b) = cells b := by
  rcases b with ⟨a, b, c, d⟩
  simp only [cells, Board.flip]
  rw [Multiset.ext]
  intro x
  simp [Multiset.count_cons, Multiset.count_singleton]
  split_ifs <;> omega

/-- Every branch of `rotate` is a composition of cell permutations. -/
lemma cells_rotate (b : Board) (r : Int) : cells (rotate b r) = cells b := by
  simp only [rotate]
  split_ifs <;>
    simp [cells_mirror, cells_transpose, cells_flip]

/-- Every branch of `isomorphic` is a composition of cell permutations. -/
lemma cells_isomorphic (b : Board) (i : Int) :
    cells (Board.isomorphic b i) = cells b := by
  simp only [Board.isomorphic]
  split_ifs <;>
    simp [cells_rotate, cells_mirror]

/-- **C8.** Isomorphism closure: for every board and every `i` in `[0,8)`,
`isomorphic(i)` produces a board whose multiset of the four cell ranks equals
the multiset of cell ranks of the original board. -/
theorem isomorphic_cells_closure (b : Board) (i : Int) (h0 : 0 ≤ i) (h8 : i < 8) :
    cells (Board.isomorphic b i) = cells b :=
  cells_isomorphic b i

theorem isomorphic_cells_closure_witness :
    ((0 : Int) ≤ 3 ∧ (3 : Int) < 8) ∧
      cells (Board.isomorphic ⟨1, 2, 3, 4⟩ 3) = cells ⟨1, 2, 3, 4⟩ :=
  ⟨by decide, isomorphic_cells_closure ⟨1, 2, 3, 4⟩ 3 (by decide) (by decide)⟩

/-- `mirror` preserves the rank-below-6 invariant. -/
lemma valid5_mirror {b : Board} (h : valid5 b) : valid5 (mirror b) := by
  obtain ⟨h1, h2, h3, h4⟩ := h
  exact ⟨h2, h1, h4, h3⟩

/-- `transpose` preserves the rank-below-6 invariant. -/
lemma valid5_transpose {b : Board} (h : valid5 b) : valid5 (transpose b) := by
  obtain ⟨h1, h2, h3, h4⟩ := h
  exact ⟨h1, h3, h2, h4⟩

/-- `flip` preserves the rank-below-6 invariant. -/
lemma valid5_flip {b : Board} (h : valid5 b) : valid5 (Board.flip b) := by
  obtain ⟨h1, h2, h3, h4⟩ := h
  exact ⟨h3, h4, h1, h2⟩

/-- `rotate` preserves the rank-below-6 invariant. -/
lemma valid5_rotate {b : Board} (r : Int) (h : valid5 b) : valid5 (rotate b r) := by
  simp only [rotate]
  split_ifs <;>
    first
      | exact h
      | exact valid5_mirror (valid5_transpose h)
      | exact valid5_flip (valid5_mirror h)
      | exact valid5_flip (valid5_transpose h)

/-- `isomorphic` preserves the rank-below-6 invariant. -/
lemma valid5_isomorphic {b : Board} (i : Int) (h : valid5 b) :
    valid5 (Board.isomorphic b i) := by
  simp only [Board.isomorphic]
  split_ifs <;>
    first
      | exact valid5_rotate _ (valid5_mirror h)
      | exact valid5_rotate _ h

/-- Ranks below 6 are in particular valid nibbles. -/
lemma valid15_of_valid5 {b : Board} (h : valid5 b) : valid15 b := by
  obtain ⟨h1, h2, h3, h4⟩ := h
  exact ⟨by omega, by omega, by omega, by omega⟩

/-- `encode` is injective on boards with nibble cells. -/
lemma encode_inj {x y : Board} (hx : valid15 x) (hy : valid15 y)
    (h : encode x = encode y) : x = y := by
  rcases x with ⟨a, b, c, d⟩
  rcases y with ⟨a', b', c', d'⟩
  simp only [valid15] at hx hy
  simp only [encode, Board.mk.injEq] at h ⊢
  omega

/-- `vindex` is injective on boards with cells below 6. -/
lemma vindex_inj {x y : Board} (hx : valid5 x) (hy : valid5 y)
    (h : vindex x = vindex y) : x = y := by
  rcases x with ⟨a, b, c, d⟩
  rcases y with ⟨a', b', c', d'⟩
  simp only [valid5] at hx hy
  simp only [vindex, Board.mk.injEq] at h ⊢
  omega

/-- `isomorphic 0` is the identity. -/
lemma isomorphic_zero (b : Board) : Board.isomorphic b 0 = b := rfl

end Symmetry

section Illegality

open Board

/-- `mirror` preserves the nibble invariant. -/
lemma valid15_mirror {b : Board} (h : valid15 b) : valid15 (mirror b) := by
  obtain ⟨h1, h2, h3, h4⟩ := h
  exact ⟨h2, h1, h4, h3⟩

/-- `transpose` preserves the nibble invariant. -/
lemma valid15_transpose {b : Board} (h : valid15 b) : valid15 (transpose b) := by
  obtain ⟨h1, h2, h3, h4⟩ := h
  exact ⟨h1, h3, h2, h4⟩

/-- Case analysis of one row of `left` on nibble inputs: the row is either
unchanged, or changed with both outputs still nibbles and the second output 0,
or merged from `(15,15)` into the out-of-nibble cell 16. -/
lemma rowLeft_spec : ∀ a < 16, ∀ b < 16,
    ((rowLeft a b).1 = a ∧ (rowLeft a b).2.1 = b) ∨
    ((rowLeft a b).1 ≤ 15 ∧ (rowLeft a b).2.1 = 0 ∧ ¬((rowLeft a b).1 = a ∧ b = 0)) ∨
    ((rowLeft a b).1 = 16 ∧ (rowLeft a b).2.1 = 0 ∧ a = 15 ∧ b = 15) := by
  decide

/-- The board component of `left` is the row-wise slide/merge, in both the
legal and the illegal branch (the C++ `tile` is mutated before the check). -/
lemma left_fst (b : Board) :
    (Board.left b).1 = ⟨(rowLeft b.t00 b.t01).1, (rowLeft b.t00 b.t01).2.1,
                        (rowLeft b.t10 b.t11).1, (rowLeft b.t10 b.t11).2.1⟩ := by
  simp only [Board.left]
  split_ifs <;> rfl

/-- On a nibble-valid board, the encoding comparison performed inside `left`
is equivalent to cell-wise board equality, and stays equivalent after
post-composing with each symmetry used by `right`/`up`/`down` (the merge cell
16 produced from `(15,15)` can never make two distinct boards encode alike in
any of these orientations). -/
lemma left_encode_eq_iff (c : Board) (h : valid15 c) :
    ((Board.left c).1 = c ↔ encode (Board.left c).1 = encode c) ∧
    ((Board.left c).1 = c ↔ encode (mirror (Board.left c).1) = encode (mirror c)) ∧
    ((Board.left c).1 = c ↔ encode (transpose (Board.left c).1) = encode (transpose c)) ∧
    ((Board.left c).1 = c ↔
      encode (Board.flip (transpose (Board.left c).1)) = encode (Board.flip (transpose c))) := by
  rw [left_fst]
  rcases c with ⟨a, b, c', d⟩
  simp only [valid15] at h
  obtain ⟨h1, h2, h3, h4⟩ := h
  have F0 := rowLeft_spec a (by omega) b (by omega)
  have F1 := rowLeft_spec c' (by omega) d (by omega)
  simp only [encode, mirror, transpose, Board.flip, Board.mk.injEq]
  omega

/-- `left` reports ILLEGAL exactly when the encoding is unchanged. -/
lemma left_illegal_iff (b : Board) :
    ((Board.left b).2 = -1 ↔ encode (Board.left b).1 = encode b) := by
  simp only [Board.left]
  split_ifs with h
  · refine ⟨fun hs => ?_, fun he => absurd he h⟩
    simp only at hs
  · exact ⟨fun _ => not_not.mp h, fun _ => rfl⟩

/-- A non-ILLEGAL return of `left` is a (nonnegative) score. -/
lemma left_nonneg (b : Board) (h : (Board.left b).2 ≠ -1) : 0 ≤ (Board.left b).2 := by
  simp only [Board.left] at h ⊢
  split_ifs at h ⊢ <;> dsimp only at h ⊢ <;> omega

/-- `right` reports ILLEGAL exactly when the final encoding equals the
original one. -/
lemma right_illegal_iff (b : Board) (h : valid15 b) :
    ((Board.right b).2 = -1 ↔ encode (Board.right b).1 = encode b) := by
  have L := left_encode_eq_iff (mirror b) (valid15_mirror h)
  have e1 : (Board.right b).2 = (Board.left (mirror b)).2 := rfl
  have e2 : (Board.right b).1 = mirror (Board.left (mirror b)).1 := rfl
  rw [e1, e2, left_illegal_iff]
  exact L.1.symm.trans L.2.1

/-- `up` reports ILLEGAL exactly when the final encoding equals the
original one. -/
lemma up_illegal_iff (b : Board) (h : valid15 b) :
    ((Board.up b).2 = -1 ↔ encode (Board.up b).1 = encode b) := by
  have L := left_encode_eq_iff (transpose b) (valid15_transpose h)
  have e1 : (Board.up b).2 = (Board.left (transpose b)).2 := rfl
  have e2 : (Board.up b).1 = transpose (Board.left (transpose b)).1 := rfl
  rw [e1, e2, left_illegal_iff]
  exact L.1.symm.trans L.2.2.1

/-- `down` reports ILLEGAL exactly when the final encoding equals the
original one. -/
lemma down_illegal_iff (b : Board) (h : valid15 b) :
    ((Board.down b).2 = -1 ↔ encode (Board.down b).1 = encode b) := by
  have L := left_encode_eq_iff (mirror (transpose b)) (valid15_mirror (valid15_transpose h))
  have e1 : (Board.down b).2 = (Board.left (mirror (transpose b))).2 := rfl
  have e2 : (Board.down b).1 =
      Board.flip (transpose (Board.left (mirror (transpose b))).1) := rfl
  rw [e1, e2, left_illegal_iff]
  exact L.1.symm.trans L.2.2.2

/-- **C2.** For every nibble-valid board and every direction opcode in
`{0,1,2,3}`, `move` returns the ILLEGAL sentinel `-1` if and only if the
board's encoded value after the move equals its encoded value before the move,
regardless of any reward computed during the merge; and whenever `move` does
not return ILLEGAL, its return value is a (nonnegative) reward — in particular
a reward-0 move that changes the board is legal and returns 0. -/
theorem move_illegal_iff (b : Board) (h : valid15 b) (op : Int)
    (hlo : 0 ≤ op) (hhi : op < 4) :
    ((Board.move b op).2 = -1 ↔ encode (Board.move b op).1 = encode b) ∧
    ((Board.move b op).2 ≠ -1 → 0 ≤ (Board.move b op).2) := by
  interval_cases op
  · have em : Board.move b 0 = Board.up b := rfl
    rw [em]
    exact ⟨up_illegal_iff b h, fun hne => left_nonneg (transpose b) hne⟩
  · have em : Board.move b 1 = Board.right b := rfl
    rw [em]
    exact ⟨right_illegal_iff b h, fun hne => left_nonneg (mirror b) hne⟩
  · have em : Board.move b 2 = Board.down b := rfl
    rw [em]
    exact ⟨down_illegal_iff b h, fun hne => left_nonneg (mirror (transpose b)) hne⟩
  · have em : Board.move b 3 = Board.left b := rfl
    rw [em]
    exact ⟨left_illegal_iff b, fun hne => left_nonneg b hne⟩

theorem move_illegal_iff_witness :
    (Board.valid15 ⟨0, 1, 0, 0⟩ ∧ (0 : Int) ≤ 3 ∧ (3 : Int) < 4) ∧
      ((Board.move ⟨0, 1, 0, 0⟩ 3).2 = -1 ↔
        encode (Board.move ⟨0, 1, 0, 0⟩ 3).1 = encode ⟨0, 1, 0, 0⟩) :=
  ⟨⟨by decide, by decide, by decide⟩,
    (move_illegal_iff ⟨0, 1, 0, 0⟩ (by decide) 3 (by decide) (by decide)).1⟩

end Illegality

/-- The exact rational value of `std::numeric_limits<float>::max()`,
`(2^24 - 1) * 2^104`. -/
def FLT_MAX : ℚ := 2 ^ 128 - 2 ^ 104

/-- An action is legal when `move` does not return the `-1` sentinel
(`r[op] != -1` in the source). -/
def legalOp (b : Board) (op : Nat) : Prop :=
  (Board.move b (op : Int)).2 ≠ -1

instance (b : Board) (op : Nat) : Decidable (legalOp b op) := by
  unfold legalOp; infer_instance

/-- The candidate value of a direction: `r[op] + V(a[op])` — the reward plus
the table entry of the afterstate. -/
def candVal (w : Nat → ℚ) (b : Board) (op : Nat) : ℚ :=
  ((Board.move b (op : Int)).2 : ℚ) + vget w (Board.move b (op : Int)).1

/-- One iteration of the action-evaluation loop in `main`:
```
r[op] = a[op].move(op);
if (r[op] != -1) { v[op] = r[op] + V(a[op]); if (v[op] > v[x]) x = op; }
```
The state is the pair `(v, x)`. -/
def evalStep (w : Nat → ℚ) (b : Board) (st : (Nat → ℚ) × Nat) (op : Nat) :
    (Nat → ℚ) × Nat :=
  let res := Board.move b (op : Int)
  if res.2 ≠ -1 then
    let v := fun j => if j = op then (res.2 : ℚ) + vget w res.1 else st.1 j
    (v, if v op > v st.2 then op else st.2)
  else st

/-- The aggregate initialization `float v[4] = { -FLT_MAX };`: element 0 is
`-FLT_MAX`, the remaining elements are value-initialized to 0. -/
def initV : Nat → ℚ := fun op => if op = 0 then -FLT_MAX else 0

/-- The evaluation/selection loop of `main` over `op = 0,1,2,3`, starting
from `x = 0`, returning the final `(v, x)`. -/
def chooseAction (w : Nat → ℚ) (b : Board) : (Nat → ℚ) × Nat :=
  [0, 1, 2, 3].foldl (evalStep w b) (initV, 0)

/-- The loop body of `train_isomorphic`: for each index `i`, compute the
variant; skip it when its encoding is already in `trained` (the
`std::vector<int>` holds board *encodings*), otherwise append the encoding
and add `upd` to the variant's table entry. -/
def trainIsoGo (b : Board) (upd : ℚ) :
    List Int → (Nat → ℚ) × List Nat → (Nat → ℚ) × List Nat
  | [], st => st
  | i :: is, (w, trained) =>
    let iso := Board.isomorphic b i
    if Board.encode iso ∈ trained then trainIsoGo b upd is (w, trained)
    else trainIsoGo b upd is (vadd w iso upd, trained ++ [Board.encode iso])

/-- `train_isomorphic(b, upd)`: loop `i` from 0 to `isomorphic - 1` (the
configuration constant, 8), training each not-yet-seen symmetric variant. -/
def train_isomorphic (w : Nat → ℚ) (b : Board) (upd : ℚ) (isomorphic : Nat) :
    Nat → ℚ :=
  (trainIsoGo b upd ((List.range isomorphic).map fun i : Nat => (i : Int)) (w, [])).1

/-- The TD target of the forward update, as the spec describes it:
`reward(x) + get(afterstate(x))` for the selected action `x` when that action
is legal, and 0 when all four actions are illegal. -/
def tdTarget (w : Nat → ℚ) (b : Board) : ℚ :=
  let x := (chooseAction w b).2
  if (Board.move b (x : Int)).2 ≠ -1 then candVal w b x else 0

/-- The forward TD(0) update block of `main` (executed whenever the episode
history holds more than one entry):
```
float exact = r[x] != -1 ? v[x] : 0;
float& u = V(history[history.size() - 2]);
auto upd = alpha * (exact - u);
train_isomorphic(history[history.size() - 2], upd);
```
`prior` is `history[history.size() - 2]`, `b` the current before-state. -/
def forwardStep (w : Nat → ℚ) (alpha : ℚ) (prior b : Board) : Nat → ℚ :=
  let st := chooseAction w b
  let exact : ℚ := if (Board.move b (st.2 : Int)).2 ≠ -1 then st.1 st.2 else 0
  let upd := alpha * (exact - vget w prior)
  train_isomorphic w prior upd 8

/-- One iteration of the backward replay loop of `main`, over the reversed
episode history, each entry a triple `(afterstate, preceding before-state,
recorded action)`:
```
auto& v = V(history.back());
auto upd = alpha * (exact - v);
train_isomorphic(history.back(), upd);
history.pop_back();
r = board(history.back()).move(actions.back());
exact = v + r;
```
`v` is a *reference* into the table, so the `exact` recomputation reads the
post-update entry. -/
def backwardGo (alpha : ℚ) :
    (Nat → ℚ) → ℚ → List (Board × Board × Int) → Nat → ℚ
  | w, _, [] => w
  | w, exact, (a, bp, act) :: rest =>
    let upd := alpha * (exact - vget w a)
    let w2 := train_isomorphic w a upd 8
    backwardGo alpha w2 (vget w2 a + ((Board.move bp act).2 : ℚ)) rest

/-- The backward replay of a full episode: the running return `exact` starts
at 0 at the terminal afterstate (`int r = 0; float exact = 0;`). -/
def backwardReplay (w : Nat → ℚ) (alpha : ℚ)
    (hist : List (Board × Board × Int)) : Nat → ℚ :=
  backwardGo alpha w 0 hist

section MoveNonneg

open Board

/-- A non-ILLEGAL `move` returns a nonnegative reward, for every opcode. -/
lemma move_nonneg (b : Board) (op : Int) (h : (Board.move b op).2 ≠ -1) :
    0 ≤ (Board.move b op).2 := by
  simp only [Board.move] at h ⊢
  split_ifs at h ⊢
  · exact left_nonneg (transpose b) h
  · exact left_nonneg (mirror b) h
  · exact left_nonneg (mirror (transpose b)) h
  · exact left_nonneg b h
  · exact absurd rfl h

end MoveNonneg

section TrainIso

open Board

/-- Entry-wise characterization of the dedup training loop: starting from
table `w` and already-trained encodings `trained`, entry `j` gains `upd`
exactly once iff some remaining variant index maps to `j` and its encoding is
not yet trained.  Requires cells below 6 so that distinct variants occupy
distinct table entries. -/
lemma trainIsoGo_spec (b : Board) (upd : ℚ) (h5 : Board.valid5 b) :
    ∀ (is : List Int) (w : Nat → ℚ) (trained : List Nat) (j : Nat),
      (trainIsoGo b upd is (w, trained)).1 j =
        w j + (if ∃ i ∈ is, vindex (Board.isomorphic b i) = j ∧
                  Board.encode (Board.isomorphic b i) ∉ trained then upd else 0) := by
  intro is
  induction is with
  | nil =>
    intro w trained j
    simp [trainIsoGo]
  | cons i is ih =>
    intro w trained j
    by_cases hmem : Board.encode (Board.isomorphic b i) ∈ trained
    · have hstep : trainIsoGo b upd (i :: is) (w, trained) =
          trainIsoGo b upd is (w, trained) := by
        simp only [trainIsoGo]
        rw [if_pos hmem]
      rw [hstep, ih]
      have hcond : (∃ i' ∈ i :: is, vindex (Board.isomorphic b i') = j ∧
            Board.encode (Board.isomorphic b i') ∉ trained) ↔
          (∃ i' ∈ is, vindex (Board.isomorphic b i') = j ∧
            Board.encode (Board.isomorphic b i') ∉ trained) := by
        constructor
        · rintro ⟨i', hi', hv, he⟩
          rcases List.mem_cons.mp hi' with rfl | hi'
          · exact absurd hmem he
          · exact ⟨i', hi', hv, he⟩
        · rintro ⟨i', hi', hv, he⟩
          exact ⟨i', List.mem_cons_of_mem _ hi', hv, he⟩
      simp only [hcond]
    · have hstep : trainIsoGo b upd (i :: is) (w, trained) =
          trainIsoGo b upd is
            (vadd w (Board.isomorphic b i) upd,
             trained ++ [Board.encode (Board.isomorphic b i)]) := by
        simp only [trainIsoGo]
        rw [if_neg hmem]
      rw [hstep, ih]
      have hval : ∀ i' : Int, Board.valid5 (Board.isomorphic b i') :=
        fun i' => valid5_isomorphic i' h5
      by_cases hj : j = vindex (Board.isomorphic b i)
      · have hC : ∃ i' ∈ i :: is, vindex (Board.isomorphic b i') = j ∧
            Board.encode (Board.isomorphic b i') ∉ trained :=
          ⟨i, List.mem_cons_self i is, hj.symm, hmem⟩
        rw [if_pos hC]
        have hC2 : ¬ ∃ i' ∈ is, vindex (Board.isomorphic b i') = j ∧
            Board.encode (Board.isomorphic b i') ∉
              trained ++ [Board.encode (Board.isomorphic b i)] := by
          rintro ⟨i', hi', hv, he⟩
          have heq : Board.isomorphic b i' = Board.isomorphic b i :=
            vindex_inj (hval i') (hval i) (by rw [hv, hj])
          apply he
          rw [heq]
          exact List.mem_append_right _ (List.mem_singleton.mpr rfl)
        rw [if_neg hC2]
        simp [vadd, hj]
      · have hvadd : vadd w (Board.isomorphic b i) upd j = w j := by
          simp [vadd, hj]
        rw [hvadd]
        have hcond : (∃ i' ∈ is, vindex (Board.isomorphic b i') = j ∧
              Board.encode (Board.isomorphic b i') ∉
                trained ++ [Board.encode (Board.isomorphic b i)]) ↔
            (∃ i' ∈ i :: is, vindex (Board.isomorphic b i') = j ∧
              Board.encode (Board.isomorphic b i') ∉ trained) := by
          constructor
          · rintro ⟨i', hi', hv, he⟩
            exact ⟨i', List.mem_cons_of_mem _ hi', hv,
              fun hmem' => he (List.mem_append_left _ hmem')⟩
          · rintro ⟨i', hi', hv, he⟩
            rcases List.mem_cons.mp hi' with rfl | hi'
            · exact absurd hv.symm hj
            · refine ⟨i', hi', hv, ?_⟩
              intro hmem'
              rcases List.mem_append.mp hmem' with hm1 | hm2
              · exact he hm1
              · have henc : Board.isomorphic b i' = Board.isomorphic b i :=
                  encode_inj (valid15_of_valid5 (hval i'))
                    (valid15_of_valid5 (hval i)) (List.mem_singleton.mp hm2)
                apply hj
                rw [← hv, henc]
        simp only [hcond]

/-- Table entry `j` is hit by one of the 8 nominal symmetric variants of `b`. -/
def hitByVariant (b : Board) (j : Nat) : Prop :=
  ∃ k : Nat, k < 8 ∧ vindex (Board.isomorphic b (k : Int)) = j

instance (b : Board) (j : Nat) : Decidable (hitByVariant b j) :=
  decidable_of_iff
    (∃ k ∈ List.range 8, vindex (Board.isomorphic b (k : Int)) = j)
    (by
      constructor
      · rintro ⟨k, hk, hv⟩
        exact ⟨k, List.mem_range.mp hk, hv⟩
      · rintro ⟨k, hk, hv⟩
        exact ⟨k, List.mem_range.mpr hk, hv⟩)

/-- Entry-wise characterization of `train_isomorphic` with the full 8 nominal
variants: every entry hit by some variant gains exactly one copy of `upd`,
every other entry is unchanged. -/
lemma train_isomorphic_spec (w : Nat → ℚ) (b : Board) (upd : ℚ)
    (h5 : Board.valid5 b) (j : Nat) :
    train_isomorphic w b upd 8 j =
      w j + (if hitByVariant b j then upd else 0) := by
  unfold train_isomorphic
  rw [trainIsoGo_spec b upd h5]
  congr 1
  split_ifs with h1 h2 h3
  · rfl
  · exfalso
    apply h2
    obtain ⟨i, hi, hv, -⟩ := h1
    simp only [List.mem_map, List.mem_range] at hi
    obtain ⟨k, hk, rfl⟩ := hi
    exact ⟨k, hk, hv⟩
  · exfalso
    apply h1
    obtain ⟨k, hk, hv⟩ := h3
    refine ⟨(k : Int), ?_, hv, List.not_mem_nil _⟩
    simp only [List.mem_map, List.mem_range]
    exact ⟨k, hk, rfl⟩
  · rfl

/-- The entry of the trained board itself (its variant for `i = 0`) gains
exactly `upd`. -/
lemma train_isomorphic_self (w : Nat → ℚ) (b : Board) (upd : ℚ)
    (h5 : Board.valid5 b) :
    vget (train_isomorphic w b upd 8) b = vget w b + upd := by
  unfold vget
  rw [train_isomorphic_spec w b upd h5]
  have hC : hitByVariant b (vindex b) :=
    ⟨0, by omega, by rw [Nat.cast_zero, isomorphic_zero]⟩
  rw [if_pos hC]

end TrainIso

section ForwardBackward

open Board

/-- `evalStep` preserves the fact that the recorded `v[x]` is the candidate
value of the selected action whenever that action is legal. -/
lemma evalStep_vsel (w : Nat → ℚ) (b : Board) (st : (Nat → ℚ) × Nat) (op : Nat)
    (hQ : legalOp b st.2 → st.1 st.2 = candVal w b st.2) :
    legalOp b (evalStep w b st op).2 →
      (evalStep w b st op).1 (evalStep w b st op).2 =
        candVal w b (evalStep w b st op).2 := by
  obtain ⟨v, x⟩ := st
  by_cases hleg : (Board.move b (op : Int)).2 ≠ -1
  · simp only [evalStep]
    rw [if_pos hleg]
    simp only
    split_ifs <;> intro hlx <;> (try exact hQ hlx) <;> simp_all [candVal]
  · simp only [evalStep]
    rw [if_neg hleg]
    exact hQ

/-- After the full selection loop, the stored `v[x]` of the selected action
equals its candidate value `r[x] + V(a[x])` whenever that action is legal. -/
lemma chooseAction_vsel (w : Nat → ℚ) (b : Board)
    (hleg : legalOp b (chooseAction w b).2) :
    (chooseAction w b).1 (chooseAction w b).2 =
      candVal w b (chooseAction w b).2 := by
  have hc : chooseAction w b =
      evalStep w b (evalStep w b (evalStep w b (evalStep w b (initV, 0) 0) 1) 2) 3 := rfl
  have hQ1 : legalOp b (evalStep w b (initV, 0) 0).2 →
      (evalStep w b (initV, 0) 0).1 (evalStep w b (initV, 0) 0).2 =
        candVal w b (evalStep w b (initV, 0) 0).2 := by
    by_cases hleg0 : (Board.move b ((0 : Nat) : Int)).2 ≠ -1
    · simp only [evalStep]
      rw [if_pos hleg0]
      simp only
      split_ifs <;> intro hlx <;> simp_all [candVal]
    · simp only [evalStep]
      rw [if_neg hleg0]
      intro h
      exact absurd h hleg0
  have hQ2 := evalStep_vsel w b _ 1 hQ1
  have hQ3 := evalStep_vsel w b _ 2 hQ2
  have hQ4 := evalStep_vsel w b _ 3 hQ3
  rw [hc] at hleg ⊢
  exact hQ4 hleg

/-- **C1.** Forward-mode TD(0) update with isomorphism sharing: with target
`reward(x) + get(afterstate(x))` for the selected action `x` when legal and 0
when all four actions are illegal, the forward update adds the identical
`delta = alpha * (target - get(prior))` exactly once to the table entry of
each distinct board among the 8 nominal symmetric variants of the prior
afterstate, and leaves every other entry unchanged; in particular, starting
from an all-zero table, the first update after a single legal move sets each
affected entry to exactly `alpha * target`. -/
theorem forward_td_update (w : Nat → ℚ) (alpha : ℚ) (prior b : Board)
    (h5 : Board.valid5 prior) :
    (∀ j, forwardStep w alpha prior b j =
        w j + (if hitByVariant prior j
               then alpha * (tdTarget w b - vget w prior) else 0)) ∧
    ((w = fun _ => 0) → ∀ k : Nat, k < 8 →
        forwardStep w alpha prior b (vindex (Board.isomorphic prior (k : Int))) =
          alpha * tdTarget w b) := by
  have key : ∀ j, forwardStep w alpha prior b j =
      w j + (if hitByVariant prior j
             then alpha * (tdTarget w b - vget w prior) else 0) := by
    intro j
    by_cases hleg : (Board.move b (((chooseAction w b).2 : Nat) : Int)).2 ≠ -1
    · have hfw : forwardStep w alpha prior b =
          train_isomorphic w prior
            (alpha * (candVal w b (chooseAction w b).2 - vget w prior)) 8 := by
        simp only [forwardStep]
        rw [if_pos hleg, chooseAction_vsel w b hleg]
      have htd : tdTarget w b = candVal w b (chooseAction w b).2 := by
        simp only [tdTarget]
        rw [if_pos hleg]
      rw [hfw, train_isomorphic_spec _ _ _ h5 j, htd]
    · have hfw : forwardStep w alpha prior b =
          train_isomorphic w prior (alpha * (0 - vget w prior)) 8 := by
        simp only [forwardStep]
        rw [if_neg hleg]
      have htd : tdTarget w b = 0 := by
        simp only [tdTarget]
        rw [if_neg hleg]
      rw [hfw, train_isomorphic_spec _ _ _ h5 j, htd]
  refine ⟨key, ?_⟩
  intro hw0 k hk
  rw [key]
  have hhit : hitByVariant prior (vindex (Board.isomorphic prior (k : Int))) :=
    ⟨k, hk, rfl⟩
  rw [if_pos hhit]
  have h1 : w (vindex (Board.isomorphic prior (k : Int))) = 0 := by rw [hw0]
  have h2 : vget w prior = 0 := by unfold vget; rw [hw0]
  rw [h1, h2]
  ring

theorem forward_td_update_witness :
    (Board.valid5 ⟨0, 1, 0, 0⟩ ∧
        ((fun _ : Nat => (0 : ℚ)) = fun _ : Nat => (0 : ℚ)) ∧ 0 < 8) ∧
      forwardStep (fun _ => 0) (1 / 100) ⟨0, 1, 0, 0⟩ ⟨1, 1, 0, 0⟩
          (vindex (Board.isomorphic ⟨0, 1, 0, 0⟩ ((0 : Nat) : Int))) =
        (1 / 100) * tdTarget (fun _ => 0) ⟨1, 1, 0, 0⟩ :=
  ⟨⟨by decide, rfl, by omega⟩,
    (forward_td_update (fun _ => 0) (1 / 100) ⟨0, 1, 0, 0⟩ ⟨1, 1, 0, 0⟩
      (by decide)).2 rfl 0 (by omega)⟩

/-- **C6.** Backward-mode replay: the replay starts from the terminal
afterstate with running return `exact = 0`; each iteration computes
`delta = alpha * (exact - get(state))`, applies it with the same deduplicated
isomorphism-sharing rule as forward mode (entry-wise: every entry hit by a
variant gains exactly one `delta`), and then recomputes `exact` as
`get(state) + reward` where the reward comes from re-applying the recorded
action to the preceding before-state (`get` reads the just-updated entry,
`v` being a reference into the table). -/
theorem backward_replay_update (w : Nat → ℚ) (alpha exact : ℚ) (a bp : Board)
    (act : Int) (rest : List (Board × Board × Int)) (h5 : Board.valid5 a) :
    backwardGo alpha w exact ((a, bp, act) :: rest) =
      backwardGo alpha
        (train_isomorphic w a (alpha * (exact - vget w a)) 8)
        (vget (train_isomorphic w a (alpha * (exact - vget w a)) 8) a +
          ((Board.move bp act).2 : ℚ)) rest ∧
    (∀ j, train_isomorphic w a (alpha * (exact - vget w a)) 8 j =
        w j + (if hitByVariant a j then alpha * (exact - vget w a) else 0)) ∧
    vget (train_isomorphic w a (alpha * (exact - vget w a)) 8) a =
      vget w a + alpha * (exact - vget w a) ∧
    (∀ hist : List (Board × Board × Int),
      backwardReplay w alpha hist = backwardGo alpha w 0 hist) :=
  ⟨rfl, fun j => train_isomorphic_spec w a _ h5 j,
    train_isomorphic_self w a _ h5, fun _ => rfl⟩

theorem backward_replay_update_witness :
    Board.valid5 ⟨1, 0, 0, 0⟩ ∧
      vget (train_isomorphic (fun _ => 0) ⟨1, 0, 0, 0⟩
          ((1 / 100) * (0 - vget (fun _ => 0) ⟨1, 0, 0, 0⟩)) 8) ⟨1, 0, 0, 0⟩ =
        vget (fun _ => 0) ⟨1, 0, 0, 0⟩ +
          (1 / 100) * (0 - vget (fun _ => 0) ⟨1, 0, 0, 0⟩) :=
  ⟨by decide,
    (backward_replay_update (fun _ => 0) (1 / 100) 0 ⟨1, 0, 0, 0⟩ ⟨0, 1, 0, 0⟩ 3 []
      (by decide)).2.2.1⟩

end ForwardBackward

section Selection

open Board

/-- Every table entry is strictly above `-FLT_MAX` (true of any table the
program can actually hold; rules out the degenerate float where a candidate
ties with the uninitialized sentinel `v[0]`). -/
def wAboveNegMax (w : Nat → ℚ) : Prop := ∀ j, -FLT_MAX < w j

/-- The loop invariant of the selection loop after processing the opcodes in
`L`: either no processed action was legal (and `x` still points at 0, whose
`v` entry is the `-FLT_MAX` sentinel), or `x` is a processed legal action
whose `v` entry is its candidate value; moreover `v[x]` dominates every
processed legal candidate, and any processed legal candidate equal to `v[x]`
has opcode at least `x`. -/
def selInv (w : Nat → ℚ) (b : Board) (L : List Nat) (st : (Nat → ℚ) × Nat) : Prop :=
  ((st.2 = 0 ∧ (∀ op ∈ L, ¬ legalOp b op) ∧ st.1 st.2 = -FLT_MAX) ∨
    (st.2 ∈ L ∧ legalOp b st.2 ∧ st.1 st.2 = candVal w b st.2)) ∧
  (∀ op ∈ L, legalOp b op → candVal w b op ≤ st.1 st.2) ∧
  (∀ op ∈ L, legalOp b op → candVal w b op = st.1 st.2 → st.2 ≤ op)

/-- The `v` array after a legal step: entry `op` holds the candidate value,
all others are untouched. -/
lemma evalStep_fst_legal (w : Nat → ℚ) (b : Board) (st : (Nat → ℚ) × Nat)
    (op : Nat) (h : (Board.move b (op : Int)).2 ≠ -1) :
    (evalStep w b st op).1 = fun j => if j = op then candVal w b op else st.1 j := by
  simp only [evalStep]
  rw [if_pos h]
  rfl

/-- The selected index after a legal step: `op` exactly when the fresh
candidate strictly beats the previously recorded `v[x]`. -/
lemma evalStep_snd_legal (w : Nat → ℚ) (b : Board) (st : (Nat → ℚ) × Nat)
    (op : Nat) (h : (Board.move b (op : Int)).2 ≠ -1) :
    (evalStep w b st op).2 =
      if candVal w b op > (if st.2 = op then candVal w b op else st.1 st.2)
      then op else st.2 := by
  simp only [evalStep]
  rw [if_pos h]
  simp [candVal]

/-- An illegal step leaves the loop state untouched. -/
lemma evalStep_illegal (w : Nat → ℚ) (b : Board) (st : (Nat → ℚ) × Nat)
    (op : Nat) (h : ¬ (Board.move b (op : Int)).2 ≠ -1) :
    evalStep w b st op = st := by
  simp only [evalStep]
  rw [if_neg h]

/-- One iteration of the selection loop preserves the invariant, provided the
processed opcodes all precede the new one. -/
lemma selInv_step (w : Nat → ℚ) (b : Board) (hw : wAboveNegMax w)
    (L : List Nat) (st : (Nat → ℚ) × Nat) (op : Nat)
    (hI : selInv w b L st) (hL : ∀ l ∈ L, l < op) :
    selInv w b (L ++ [op]) (evalStep w b st op) := by
  obtain ⟨hmode, hmax, htie⟩ := hI
  by_cases hleg : (Board.move b (op : Int)).2 ≠ -1
  · have hE1 := evalStep_fst_legal w b st op hleg
    have hE2 := evalStep_snd_legal w b st op hleg
    by_cases hxop : st.2 = op
    · have hx' : (evalStep w b st op).2 = st.2 := by
        rw [hE2, if_pos hxop, if_neg (lt_irrefl _)]
      rcases hmode with ⟨hx0, hallIll, hvx⟩ | ⟨hxL, hlegx, hvx⟩
      · refine ⟨Or.inr ⟨?_, ?_, ?_⟩, ?_, ?_⟩
        · rw [hx', hxop]
          exact List.mem_append_right _ (List.mem_singleton.mpr rfl)
        · rw [hx', hxop]
          exact hleg
        · rw [hx', hE1, hxop]
          simp
        · intro op' hop' hlegop'
          rcases List.mem_append.mp hop' with hmem | hmem
          · exact absurd hlegop' (hallIll op' hmem)
          · have hz : op' = op := List.mem_singleton.mp hmem
            subst hz
            rw [hx', hE1, hxop]
            simp
        · intro op' hop' hlegop' heq
          rcases List.mem_append.mp hop' with hmem | hmem
          · exact absurd hlegop' (hallIll op' hmem)
          · have hz : op' = op := List.mem_singleton.mp hmem
            subst hz
            rw [hx', hxop]
      · exfalso
        have := hL st.2 hxL
        omega
    · have hsnd : (evalStep w b st op).2 =
          if candVal w b op > st.1 st.2 then op else st.2 := by
        rw [hE2, if_neg hxop]
      by_cases hcmp : candVal w b op > st.1 st.2
      · have hx' : (evalStep w b st op).2 = op := by rw [hsnd, if_pos hcmp]
        have hvop : (evalStep w b st op).1 op = candVal w b op := by
          rw [hE1]; simp
        refine ⟨Or.inr ⟨?_, ?_, ?_⟩, ?_, ?_⟩
        · rw [hx']
          exact List.mem_append_right _ (List.mem_singleton.mpr rfl)
        · rw [hx']
          exact hleg
        · rw [hx', hvop]
        · intro op' hop' hlegop'
          rw [hx', hvop]
          rcases List.mem_append.mp hop' with hmem | hmem
          · have h1 := hmax op' hmem hlegop'
            linarith
          · have hz : op' = op := List.mem_singleton.mp hmem
            subst hz
            exact le_refl _
        · intro op' hop' hlegop' heq
          rw [hx', hvop] at heq
          rw [hx']
          rcases List.mem_append.mp hop' with hmem | hmem
          · have h1 := hmax op' hmem hlegop'
            exfalso
            rw [heq] at h1
            exact absurd hcmp (not_lt.mpr h1)
          · have hz : op' = op := List.mem_singleton.mp hmem
            subst hz
            exact le_refl _
      · have hx' : (evalStep w b st op).2 = st.2 := by rw [hsnd, if_neg hcmp]
        have hvx' : (evalStep w b st op).1 (evalStep w b st op).2 = st.1 st.2 := by
          rw [hx', hE1]
          simp [hxop]
        rcases hmode with ⟨hx0, hallIll, hvx⟩ | ⟨hxL, hlegx, hvx⟩
        · exfalso
          have h1 : (0 : ℚ) ≤ ((Board.move b (op : Int)).2 : ℚ) := by
            exact_mod_cast move_nonneg b (op : Int) hleg
          have h2 : -FLT_MAX < vget w (Board.move b (op : Int)).1 := hw _
          have h3 : -FLT_MAX < candVal w b op := by
            unfold candVal
            linarith
          rw [hvx] at hcmp
          exact hcmp h3
        · refine ⟨Or.inr ⟨?_, ?_, ?_⟩, ?_, ?_⟩
          · rw [hx']
            exact List.mem_append_left _ hxL
          · rw [hx']
            exact hlegx
          · rw [hvx', hx']
            exact hvx
          · intro op' hop' hlegop'
            rw [hvx']
            rcases List.mem_append.mp hop' with hmem | hmem
            · exact hmax op' hmem hlegop'
            · have hz : op' = op := List.mem_singleton.mp hmem
              subst hz
              exact le_of_not_lt hcmp
          · intro op' hop' hlegop' heq
            rw [hvx'] at heq
            rw [hx']
            rcases List.mem_append.mp hop' with hmem | hmem
            · exact htie op' hmem hlegop' heq
            · have hz : op' = op := List.mem_singleton.mp hmem
              subst hz
              exact Nat.le_of_lt (hL st.2 hxL)
  · rw [evalStep_illegal w b st op hleg]
    refine ⟨?_, ?_, ?_⟩
    · rcases hmode with ⟨hx0, hallIll, hvx⟩ | ⟨hxL, hlegx, hvx⟩
      · refine Or.inl ⟨hx0, ?_, hvx⟩
        intro op' hop'
        rcases List.mem_append.mp hop' with hmem | hmem
        · exact hallIll op' hmem
        · have hz : op' = op := List.mem_singleton.mp hmem
          subst hz
          exact fun hlegop' => hleg hlegop'
      · exact Or.inr ⟨List.mem_append_left _ hxL, hlegx, hvx⟩
    · intro op' hop' hlegop'
      rcases List.mem_append.mp hop' with hmem | hmem
      · exact hmax op' hmem hlegop'
      · have hz : op' = op := List.mem_singleton.mp hmem
        subst hz
        exact absurd hlegop' hleg
    · intro op' hop' hlegop' heq
      rcases List.mem_append.mp hop' with hmem | hmem
      · exact htie op' hmem hlegop' heq
      · have hz : op' = op := List.mem_singleton.mp hmem
        subst hz
        exact absurd hlegop' hleg

/-- The invariant holds before any opcode is processed. -/
lemma selInv_init (w : Nat → ℚ) (b : Board) : selInv w b [] (initV, 0) := by
  refine ⟨Or.inl ⟨rfl, ?_, ?_⟩, ?_, ?_⟩
  · intro op hop
    exact absurd hop (List.not_mem_nil _)
  · simp [initV]
  · intro op hop
    exact absurd hop (List.not_mem_nil _)
  · intro op hop
    exact absurd hop (List.not_mem_nil _)

/-- **C5.** Action selection: the evaluator assigns each legal direction the
candidate value `reward + get(afterstate)`, scans opcodes in the fixed order
Up, Right, Down, Left, and keeps the first maximum: the selected opcode is
below 4; if all four directions are illegal it is 0; and if some direction is
legal, the selected direction is legal, its candidate value is at least every
legal candidate, and any legal candidate that ties it has an opcode at least
as large (ties resolve to the lowest opcode). -/
theorem action_selection_greedy (w : Nat → ℚ) (b : Board) (hw : wAboveNegMax w) :
    (chooseAction w b).2 < 4 ∧
    ((∀ op, op < 4 → ¬ legalOp b op) → (chooseAction w b).2 = 0) ∧
    ((∃ op, op < 4 ∧ legalOp b op) →
      legalOp b (chooseAction w b).2 ∧
      ∀ op, op < 4 → legalOp b op →
        candVal w b op ≤ candVal w b (chooseAction w b).2 ∧
        (candVal w b op = candVal w b (chooseAction w b).2 →
          (chooseAction w b).2 ≤ op)) := by
  have h0 := selInv_init w b
  have h1 := selInv_step w b hw [] (initV, 0) 0 h0
    (fun l hl => absurd hl (List.not_mem_nil _))
  have h2 := selInv_step w b hw ([] ++ [0]) _ 1 h1
    (by intro l hl; simp at hl; omega)
  have h3 := selInv_step w b hw (([] ++ [0]) ++ [1]) _ 2 h2
    (by intro l hl; simp at hl; omega)
  have h4 := selInv_step w b hw ((([] ++ [0]) ++ [1]) ++ [2]) _ 3 h3
    (by intro l hl; simp at hl; omega)
  have hc : chooseAction w b =
      evalStep w b (evalStep w b (evalStep w b (evalStep w b (initV, 0) 0) 1) 2) 3 := rfl
  rw [← hc] at h4
  obtain ⟨hmode, hmax, htie⟩ := h4
  have hLmem : ∀ l : Nat, l ∈ ((([] ++ [0]) ++ [1]) ++ [2]) ++ [3] ↔ l < 4 := by
    intro l
    simp
    omega
  refine ⟨?_, ?_, ?_⟩
  · rcases hmode with ⟨hx0, -, -⟩ | ⟨hxL, -, -⟩
    · omega
    · have := (hLmem _).mp hxL
      omega
  · intro hall
    rcases hmode with ⟨hx0, -, -⟩ | ⟨hxL, hlegx, -⟩
    · exact hx0
    · exact absurd hlegx (hall _ ((hLmem _).mp hxL))
  · rintro ⟨op0, hop0, hleg0⟩
    rcases hmode with ⟨-, hallIll, -⟩ | ⟨hxL, hlegx, hvx⟩
    · exact absurd hleg0 (hallIll op0 ((hLmem op0).mpr hop0))
    · refine ⟨hlegx, ?_⟩
      intro op hop hlegop
      constructor
      · have h := hmax op ((hLmem op).mpr hop) hlegop
        rw [hvx] at h
        exact h
      · intro heq
        apply htie op ((hLmem op).mpr hop) hlegop
        rw [hvx]
        exact heq

theorem action_selection_greedy_witness :
    wAboveNegMax (fun _ => 0) ∧ (chooseAction (fun _ => 0) ⟨1, 1, 0, 0⟩).2 < 4 :=
  ⟨fun j => by norm_num [FLT_MAX],
    (action_selection_greedy (fun _ => 0) ⟨1, 1, 0, 0⟩
      (fun j => by norm_num [FLT_MAX])).1⟩

end Selection
